import Mathlib

/-!
Verification development for the audio-transcription pipeline
(`tools/Transcriber/transcribe_audio.py`).

Times are embedded as rationals (`ℚ`); speaker labels and texts as `String`.
Python dictionaries (insertion-ordered) are embedded as association lists,
and Python's `max(d, key=d.get)` / running-minimum loops as first-maximum /
first-minimum scans that keep the earlier element on ties, exactly as the
CPython semantics prescribe ("If multiple items are maximal, the function
returns the first one encountered").
-/

namespace Transcriber

/-- A pyannote diarization segment `{"start": float, "end": float, "speaker": str}`.
The `end` key is embedded as `stop` (`end` is a Lean keyword). -/
structure DiarSeg where
  start : ℚ
  stop : ℚ
  speaker : String
deriving DecidableEq, Repr, Inhabited

/-- A Whisper transcription segment (the fields of `result["segments"][i]`
that the program reads: `start`, `end`, `text`). -/
structure TSeg where
  start : ℚ
  stop : ℚ
  text : String
deriving DecidableEq, Repr, Inhabited

/-- A merged, speaker-attributed segment
`{"speaker": str, "start": float, "end": float, "text": str}`
(output of `merge_transcription_with_diarization`). -/
structure ASeg where
  speaker : String
  start : ℚ
  stop : ℚ
  text : String
deriving DecidableEq, Repr, Inhabited

/-- The part of the Whisper result dictionary that the merge and output
steps read: `result["segments"]`. -/
structure WhisperResult where
  segments : List TSeg
deriving DecidableEq, Repr, Inhabited

/-- A speaker turn built by `format_transcription_diarized`'s grouping loop:
`{"speaker", "start", "end", "text"}` (`end` embedded as `stop`). -/
structure Turn where
  speaker : String
  start : ℚ
  stop : ℚ
  text : String
deriving DecidableEq, Repr, Inhabited

/-! ## `get_speaker_at_time` -/

/-- `max(0, min(end, seg["end"]) - max(start, seg["start"]))` — the clamped
temporal overlap of the query window with one diarization segment
(`get_speaker_at_time`, first loop). -/
def overlapDur (s e : ℚ) (seg : DiarSeg) : ℚ :=
  max 0 (min e seg.stop - max s seg.start)

/-- `speaker_overlaps[speaker] = speaker_overlaps.get(speaker, 0) + overlap_duration`
on an insertion-ordered association list: update the first matching key,
else append at the end (CPython dict semantics). -/
def addOverlap : List (String × ℚ) → String → ℚ → List (String × ℚ)
  | [], sp, d => [(sp, d)]
  | (k, v) :: rest, sp, d =>
    if k = sp then (k, v + d) :: rest else (k, v) :: addOverlap rest sp d

/-- One iteration of the first loop of `get_speaker_at_time`: compute the
overlap and, when it is positive, accumulate it under the segment's speaker. -/
def overlapStep (s e : ℚ) (acc : List (String × ℚ)) (seg : DiarSeg) : List (String × ℚ) :=
  let d := overlapDur s e seg
  if 0 < d then addOverlap acc seg.speaker d else acc

/-- The `speaker_overlaps` dict built by the first loop of
`get_speaker_at_time`: one entry per speaker having a positive-overlap
segment, keyed in first-insertion order, holding accumulated overlap. -/
def speakerOverlaps (segs : List DiarSeg) (s e : ℚ) : List (String × ℚ) :=
  segs.foldl (overlapStep s e) []

/-- Scan for `max(..., key=...)`: the current champion is kept unless a
strictly greater value appears (CPython returns the first maximal item). -/
def firstMaxGo (k : String) (v : ℚ) : List (String × ℚ) → String
  | [] => k
  | (k₂, v₂) :: rest => if v < v₂ then firstMaxGo k₂ v₂ rest else firstMaxGo k v rest

/-- `max(d, key=d.get)` over an insertion-ordered association list;
`none` on the empty dict (where CPython would raise instead). -/
def firstMax : List (String × ℚ) → Option String
  | [] => none
  | (k, v) :: rest => some (firstMaxGo k v rest)

/-- The nearest-segment fallback loop of `get_speaker_at_time`: running
closest `(speaker, distance)` pair, starting from
`closest_speaker = None, closest_distance = float("inf")`, replaced only on
a strictly smaller distance. -/
def nearestLoop (mid : ℚ) : List DiarSeg → Option (String × ℚ) → Option (String × ℚ)
  | [], best => best
  | seg :: rest, best =>
    let dist := |mid - (seg.start + seg.stop) / 2|
    match best with
    | none => nearestLoop mid rest (some (seg.speaker, dist))
    | some (bsp, bd) =>
      if dist < bd then nearestLoop mid rest (some (seg.speaker, dist))
      else nearestLoop mid rest (some (bsp, bd))

/-- `get_speaker_at_time(diarization_segments, start, end)`: default label on
an empty sequence; otherwise the speaker of greatest accumulated overlap;
if no segment overlaps the window, the speaker of the segment whose midpoint
is nearest the window midpoint. The final `closest_speaker or "SPEAKER_00"`
maps a falsy (`None` or empty-string) label to the default. -/
def get_speaker_at_time (segs : List DiarSeg) (s e : ℚ) : String :=
  if segs.isEmpty then "SPEAKER_00"
  else
    match firstMax (speakerOverlaps segs s e) with
    | some sp => sp
    | none =>
      let mid := (s + e) / 2
      match nearestLoop mid segs none with
      | some (sp, _) => if sp = "" then "SPEAKER_00" else sp
      | none => "SPEAKER_00"

/-! ### Specification-side definitions for the speaker resolver -/

/-- Total overlap duration a speaker label accumulates over all diarization
segments carrying that label. -/
def totalOverlap (segs : List DiarSeg) (s e : ℚ) (sp : String) : ℚ :=
  ((segs.filter (fun seg => seg.speaker = sp)).map (overlapDur s e)).sum

/-- Deduplicate a list keeping the first occurrence of each element,
preserving first-encounter order. -/
def firstOccur : List String → List String
  | [] => []
  | x :: xs => x :: firstOccur (xs.filter (fun y => y ≠ x))
termination_by l => l.length
decreasing_by
  simp only [List.length_cons]
  exact Nat.lt_succ_of_le (List.length_filter_le _ _)

/-- The distinct speaker labels that make a positive-overlap contribution,
in order of their first positive-overlap segment. -/
def posSpeakers (segs : List DiarSeg) (s e : ℚ) : List String :=
  firstOccur ((segs.filter (fun seg => 0 < overlapDur s e seg)).map DiarSeg.speaker)

/-- Distance from the query window's midpoint to a diarization segment's
midpoint (used by the nearest-segment fallback). -/
def midDist (s e : ℚ) (seg : DiarSeg) : ℚ :=
  |(s + e) / 2 - (seg.start + seg.stop) / 2|

/-! ## Merging transcription with diarization -/

/-- `merge_transcription_with_diarization(whisper_result, diarization_segments)`:
one attributed segment appended per Whisper segment, with the resolved
speaker, the segment's own `start`/`end`, and `text.strip()`. -/
def merge_transcription_with_diarization
    (whisper_result : WhisperResult) (diarization_segments : List DiarSeg) : List ASeg :=
  whisper_result.segments.foldl
    (fun merged segment =>
      merged ++
        [{ speaker := get_speaker_at_time diarization_segments segment.start segment.stop
           start := segment.start
           stop := segment.stop
           text := segment.text.trim }])
    []

/-! ## Turn aggregation (`format_transcription_diarized`, grouping loop) -/

/-- One iteration of the grouping loop of `format_transcription_diarized`:
the state is `(grouped, current_group)`; open a turn when none is open,
extend the open turn on an equal speaker, emit it and open a new one on a
speaker change. -/
def turnStep (acc : List Turn × Option Turn) (seg : ASeg) : List Turn × Option Turn :=
  match acc.2 with
  | none =>
    (acc.1, some { speaker := seg.speaker, start := seg.start, stop := seg.stop, text := seg.text })
  | some cur =>
    if seg.speaker = cur.speaker then
      (acc.1, some { cur with stop := seg.stop, text := cur.text ++ " " ++ seg.text })
    else
      (acc.1 ++ [cur],
       some { speaker := seg.speaker, start := seg.start, stop := seg.stop, text := seg.text })

/-- Close the pass: append the final open turn, if present. -/
def finishTurns (p : List Turn × Option Turn) : List Turn :=
  match p.2 with
  | none => p.1
  | some cur => p.1 ++ [cur]

/-- The grouping loop of `format_transcription_diarized`: a single
left-to-right pass from `grouped = [], current_group = None`, then the final
open turn is appended. -/
def aggregateTurns (segs : List ASeg) : List Turn :=
  finishTurns (segs.foldl turnStep ([], none))

/-! ### Specification-side definitions for turn aggregation -/

/-- Maximal runs of consecutive same-speaker attributed segments. -/
def runs : List ASeg → List (List ASeg)
  | [] => []
  | a :: rest =>
    match runs rest with
    | [] => [[a]]
    | r :: rs =>
      if a.speaker = (r.headD default).speaker then (a :: r) :: rs else [a] :: r :: rs

/-- Texts joined in order by single spaces. -/
def joinSpace : List String → String
  | [] => ""
  | [t] => t
  | t :: t₂ :: ts => t ++ " " ++ joinSpace (t₂ :: ts)

/-- The turn a (nonempty) run of attributed segments merges into: the run's
shared speaker, the first segment's `start`, the last segment's `end`, the
space-joined texts. -/
def mkTurn (run : List ASeg) : Turn :=
  { speaker := (run.headD default).speaker
    start := (run.headD default).start
    stop := (run.getLast?.getD default).stop
    text := joinSpace (run.map ASeg.text) }

/-! ## Output-file selection (`save_outputs` and `main`) -/

/-- Python truthiness of an optional list (`if diarization_segments:` /
`if diarized_segments:`): `None` and the empty list are falsy. -/
def optListTruthy {α : Type} : Option (List α) → Bool
  | none => false
  | some l => !l.isEmpty

/-- The filename suffix chosen by `save_outputs`: `"_diarized"` when the
optional `diarized_segments` argument is truthy, else `"_transcription"`. -/
def save_outputs_suffix (diarized_segments : Option (List ASeg)) : String :=
  if optListTruthy diarized_segments then "_diarized" else "_transcription"

/-- The transcript filename written by `save_outputs`:
`f"{base_name}{suffix}.txt"`. -/
def save_outputs_filename (base_name : String) (diarized_segments : Option (List ASeg)) : String :=
  base_name ++ save_outputs_suffix diarized_segments ++ ".txt"

/-- The transcript filename a run of `main` produces, given the diarization
flag, the segments diarization returned (when enabled), and the Whisper
result: `main` passes the merged segments to `save_outputs` only when the
truthiness test `if diarization_segments:` succeeds. -/
def main_transcript_filename (base_name : String) (enable_diarization : Bool)
    (dsegs : List DiarSeg) (w : WhisperResult) : String :=
  let diarization_segments : Option (List DiarSeg) :=
    if enable_diarization then some dsegs else none
  match diarization_segments with
  | none => save_outputs_filename base_name none
  | some ds =>
    if ds.isEmpty then save_outputs_filename base_name none
    else
      save_outputs_filename base_name (some (merge_transcription_with_diarization w ds))

/-! ## Timestamp formatting (`format_timestamp`) -/

/-- Python `int()` applied to a (rational-valued) float: truncation toward
zero. -/
def pyint (q : ℚ) : ℤ :=
  if 0 ≤ q then ⌊q⌋ else -⌊-q⌋

/-- Python float floor division `a // b`. -/
def pyfloordiv (a b : ℚ) : ℚ :=
  (⌊a / b⌋ : ℚ)

/-- Python float modulo `a % b` (result has the divisor's sign;
`a % b = a - b * (a // b)`). -/
def pymod (a b : ℚ) : ℚ :=
  a - b * (⌊a / b⌋ : ℚ)

/-- Python `f"{n:02d}"`: zero-pad to width 2 (a nonnegative single digit
gains a leading zero; anything at least two characters is unchanged). -/
def pad2 (n : ℤ) : String :=
  if 0 ≤ n ∧ n < 10 then "0" ++ toString n else toString n

/-- `format_timestamp(seconds)`:
`hours = int(seconds // 3600)`, `minutes = int((seconds % 3600) // 60)`,
`secs = int(seconds % 60)`; renders `f"{hours}:{minutes:02d}:{secs:02d}"`
when `hours > 0`, else `f"{minutes}:{secs:02d}"`. -/
def format_timestamp (seconds : ℚ) : String :=
  let hours : ℤ := pyint (pyfloordiv seconds 3600)
  let minutes : ℤ := pyint (pyfloordiv (pymod seconds 3600) 60)
  let secs : ℤ := pyint (pymod seconds 60)
  if 0 < hours then
    toString hours ++ ":" ++ pad2 minutes ++ ":" ++ pad2 secs
  else
    toString minutes ++ ":" ++ pad2 secs

/-- Zero-padding of a natural number to width 2. -/
def pad2Nat (n : ℕ) : String :=
  if n < 10 then "0" ++ toString n else toString n

/-- The display string the spec prescribes for a whole number of seconds:
`H:MM:SS` (hours unpadded) from 3600 s up, else `M:SS` (minutes unpadded). -/
def renderSpec (n : ℕ) : String :=
  if 3600 ≤ n then
    toString (n / 3600) ++ ":" ++ pad2Nat (n % 3600 / 60) ++ ":" ++ pad2Nat (n % 60)
  else
    toString (n / 60) ++ ":" ++ pad2Nat (n % 60)

/-! ## Infrastructure lemmas -/

lemma overlapDur_nonneg (s e : ℚ) (seg : DiarSeg) : 0 ≤ overlapDur s e seg :=
  le_max_left _ _

lemma mem_firstOccur {x : String} : ∀ {l : List String}, x ∈ firstOccur l ↔ x ∈ l := by
  intro l
  induction l using firstOccur.induct with
  | case1 => simp [firstOccur]
  | case2 y ys ih =>
    rw [firstOccur]
    simp only [List.mem_cons, ih, List.mem_filter, decide_eq_true_eq]
    constructor
    · rintro (rfl | ⟨h, _⟩)
      · exact Or.inl rfl
      · exact Or.inr h
    · rintro (rfl | h)
      · exact Or.inl rfl
      · by_cases hxy : x = y
        · exact Or.inl hxy
        · exact Or.inr ⟨h, hxy⟩

lemma firstOccur_nodup : ∀ (l : List String), (firstOccur l).Nodup := by
  intro l
  induction l using firstOccur.induct with
  | case1 => simp [firstOccur]
  | case2 y ys ih =>
    rw [firstOccur]
    refine List.nodup_cons.mpr ⟨?_, ih⟩
    intro hmem
    have := mem_firstOccur.mp hmem
    simp [List.mem_filter] at this

lemma firstOccur_eq_nil {l : List String} : firstOccur l = [] ↔ l = [] := by
  cases l with
  | nil => simp [firstOccur]
  | cons x xs => rw [firstOccur]; simp

lemma firstOccur_filter (p : String → Bool) :
    ∀ (l : List String), firstOccur (l.filter p) = (firstOccur l).filter p := by
  intro l
  induction l using firstOccur.induct with
  | case1 => simp [firstOccur]
  | case2 x xs ih =>
    by_cases hx : p x
    · rw [firstOccur, List.filter_cons_of_pos hx, firstOccur,
        List.filter_cons_of_pos hx, ← ih, List.filter_filter, List.filter_filter]
      have hcomm : List.filter (fun a => decide (a ≠ x) && p a) xs =
          List.filter (fun a => p a && decide (a ≠ x)) xs :=
        List.filter_congr (fun a _ => by rw [Bool.and_comm])
      rw [hcomm]
    · rw [firstOccur, List.filter_cons_of_neg hx, List.filter_cons_of_neg hx, ← ih,
        List.filter_filter]
      have habsorb : List.filter (fun a => p a && decide (a ≠ x)) xs = List.filter p xs :=
        List.filter_congr (fun a _ => by
          by_cases hax : a = x
          · subst hax; simp [hx]
          · simp [hax])
      rw [habsorb]

lemma addOverlap_of_not_mem {acc : List (String × ℚ)} {k : String} (d : ℚ)
    (h : k ∉ acc.map Prod.fst) : addOverlap acc k d = acc ++ [(k, d)] := by
  induction acc with
  | nil => rfl
  | cons kv rest ih =>
    obtain ⟨k₁, v₁⟩ := kv
    simp only [List.map_cons, List.mem_cons, not_or] at h
    rw [addOverlap, if_neg (fun hk => h.1 hk.symm), ih h.2, List.cons_append]

lemma addOverlap_keys (acc : List (String × ℚ)) (k : String) (d : ℚ) :
    (addOverlap acc k d).map Prod.fst =
      if k ∈ acc.map Prod.fst then acc.map Prod.fst else acc.map Prod.fst ++ [k] := by
  induction acc with
  | nil => simp [addOverlap]
  | cons kv rest ih =>
    obtain ⟨k₁, v₁⟩ := kv
    by_cases hk : k₁ = k
    · subst hk
      rw [addOverlap, if_pos rfl]
      simp
    · rw [addOverlap, if_neg hk]
      simp only [List.map_cons, List.mem_cons]
      rw [ih]
      by_cases hmem : k ∈ rest.map Prod.fst
      · rw [if_pos hmem, if_pos (Or.inr hmem)]
      · rw [if_neg hmem, if_neg (by rintro (h | h); exact hk h.symm; exact hmem h),
          List.cons_append]

lemma totalOverlap_cons (seg : DiarSeg) (rest : List DiarSeg) (s e : ℚ) (sp : String) :
    totalOverlap (seg :: rest) s e sp =
      (if seg.speaker = sp then overlapDur s e seg else 0) + totalOverlap rest s e sp := by
  by_cases h : seg.speaker = sp
  · rw [totalOverlap, List.filter_cons_of_pos (by simpa using h), List.map_cons, List.sum_cons,
      if_pos h, totalOverlap]
  · rw [totalOverlap, List.filter_cons_of_neg (by simpa using h), if_neg h, zero_add, totalOverlap]

lemma totalOverlap_nonneg (segs : List DiarSeg) (s e : ℚ) (sp : String) :
    0 ≤ totalOverlap segs s e sp := by
  apply List.sum_nonneg
  intro x hx
  obtain ⟨seg, _, rfl⟩ := List.mem_map.mp hx
  exact overlapDur_nonneg s e seg

lemma posSpeakers_cons_pos {seg : DiarSeg} {s e : ℚ} (h : 0 < overlapDur s e seg)
    (rest : List DiarSeg) :
    posSpeakers (seg :: rest) s e =
      seg.speaker :: (posSpeakers rest s e).filter (fun sp => sp ≠ seg.speaker) := by
  rw [posSpeakers, List.filter_cons_of_pos (by simpa using h), List.map_cons, firstOccur,
    firstOccur_filter, posSpeakers]

lemma posSpeakers_cons_nonpos {seg : DiarSeg} {s e : ℚ} (h : ¬ 0 < overlapDur s e seg)
    (rest : List DiarSeg) : posSpeakers (seg :: rest) s e = posSpeakers rest s e := by
  rw [posSpeakers, List.filter_cons_of_neg (by simpa using h), posSpeakers]

lemma mem_posSpeakers {segs : List DiarSeg} {s e : ℚ} {sp : String} :
    sp ∈ posSpeakers segs s e ↔ ∃ seg ∈ segs, seg.speaker = sp ∧ 0 < overlapDur s e seg := by
  rw [posSpeakers, mem_firstOccur]
  simp only [List.mem_map, List.mem_filter, decide_eq_true_eq]
  constructor
  · rintro ⟨seg, ⟨hseg, hpos⟩, rfl⟩
    exact ⟨seg, hseg, rfl, hpos⟩
  · rintro ⟨seg, hseg, rfl, hpos⟩
    exact ⟨seg, ⟨hseg, hpos⟩, rfl⟩

lemma posSpeakers_nodup (segs : List DiarSeg) (s e : ℚ) : (posSpeakers segs s e).Nodup :=
  firstOccur_nodup _

lemma map_update_id {l : List (String × ℚ)} {k : String} (d : ℚ) (h : k ∉ l.map Prod.fst) :
    l.map (fun kv => if kv.1 = k then (kv.1, kv.2 + d) else kv) = l := by
  rw [List.map_congr_left (g := id), List.map_id]
  intro kv hkv
  have : kv.1 ≠ k := fun hk => h (hk ▸ List.mem_map_of_mem Prod.fst hkv)
  simp [this]

lemma addOverlap_of_mem {acc : List (String × ℚ)} {k : String} (d : ℚ)
    (h : k ∈ acc.map Prod.fst) (hnd : (acc.map Prod.fst).Nodup) :
    addOverlap acc k d = acc.map (fun kv => if kv.1 = k then (kv.1, kv.2 + d) else kv) := by
  induction acc with
  | nil => simp at h
  | cons kv rest ih =>
    obtain ⟨k₁, v₁⟩ := kv
    simp only [List.map_cons, List.nodup_cons] at hnd
    by_cases hk : k₁ = k
    · subst hk
      rw [addOverlap, if_pos rfl, List.map_cons, map_update_id d hnd.1]
      simp
    · simp only [List.map_cons, List.mem_cons] at h
      rcases h with h | h
      · exact absurd h.symm hk
      · rw [addOverlap, if_neg hk, ih h hnd.2, List.map_cons]
        simp [hk]

lemma update_keys (l : List (String × ℚ)) (k : String) (d : ℚ) :
    (l.map (fun kv => if kv.1 = k then (kv.1, kv.2 + d) else kv)).map Prod.fst =
      l.map Prod.fst := by
  rw [List.map_map]
  apply List.map_congr_left
  intro kv _
  by_cases hk : kv.1 = k <;> simp [hk]

lemma overlapStep_pos {s e : ℚ} {seg : DiarSeg} (acc : List (String × ℚ))
    (h : 0 < overlapDur s e seg) :
    overlapStep s e acc seg = addOverlap acc seg.speaker (overlapDur s e seg) := by
  simp [overlapStep, h]

lemma overlapStep_nonpos {s e : ℚ} {seg : DiarSeg} (acc : List (String × ℚ))
    (h : ¬ 0 < overlapDur s e seg) : overlapStep s e acc seg = acc := by
  simp [overlapStep, h]

/-- The accumulator invariant of the first loop of `get_speaker_at_time`:
folding the remaining segments over any accumulator with distinct keys adds
the remaining total overlap to every present key and appends the new
positive-overlap speakers, in first-positive-contribution order, with their
total overlaps. -/
lemma speakerOverlaps_go (s e : ℚ) :
    ∀ (segs : List DiarSeg) (acc : List (String × ℚ)), (acc.map Prod.fst).Nodup →
      segs.foldl (overlapStep s e) acc =
        acc.map (fun kv => (kv.1, kv.2 + totalOverlap segs s e kv.1)) ++
          ((posSpeakers segs s e).filter (fun sp => sp ∉ acc.map Prod.fst)).map
            (fun sp => (sp, totalOverlap segs s e sp)) := by
  intro segs
  induction segs with
  | nil =>
    intro acc _
    simp only [List.foldl_nil, posSpeakers, List.filter_nil, List.map_nil, firstOccur,
      List.append_nil, totalOverlap, List.sum_nil]
    rw [List.map_congr_left (g := id), List.map_id]
    intro kv _
    simp
  | cons seg rest ih =>
    intro acc hnd
    rw [List.foldl_cons]
    by_cases hpos : 0 < overlapDur s e seg
    · rw [overlapStep_pos acc hpos]
      by_cases hmem : seg.speaker ∈ acc.map Prod.fst
      · rw [addOverlap_of_mem _ hmem hnd,
          ih _ (by rw [update_keys]; exact hnd)]
        rw [update_keys]
        congr 1
        · rw [List.map_map]
          apply List.map_congr_left
          intro kv _
          by_cases hk : kv.1 = seg.speaker
          · simp only [Function.comp_apply, if_pos hk]
            rw [totalOverlap_cons, if_pos hk.symm]
            simp [add_assoc]
          · have hk2 : ¬ seg.speaker = kv.1 := fun h => hk h.symm
            simp only [Function.comp_apply, if_neg hk]
            rw [totalOverlap_cons, if_neg hk2, zero_add]
        · rw [posSpeakers_cons_pos hpos]
          rw [List.filter_cons_of_neg (by simpa using hmem), List.filter_filter]
          have hf : List.filter
                (fun sp => decide (sp ∉ acc.map Prod.fst) && decide (sp ≠ seg.speaker))
                (posSpeakers rest s e) =
              List.filter (fun sp => sp ∉ acc.map Prod.fst) (posSpeakers rest s e) := by
            apply List.filter_congr
            intro sp _
            by_cases hsp : sp ∈ acc.map Prod.fst
            · simp [hsp]
            · have : sp ≠ seg.speaker := fun hk => hsp (hk ▸ hmem)
              simp [hsp, this]
          rw [hf]
          apply List.map_congr_left
          intro sp hsp
          simp only [List.mem_filter, decide_eq_true_eq] at hsp
          have : seg.speaker ≠ sp := fun hk => hsp.2 (hk ▸ hmem)
          rw [totalOverlap_cons, if_neg this, zero_add]
      · rw [addOverlap_of_not_mem _ hmem,
          ih _ (by
            rw [List.map_append]
            simp only [List.map_cons, List.map_nil]
            exact List.nodup_middle.mpr (by simpa using ⟨(by simpa using hmem), hnd⟩))]
        rw [List.map_append, List.map_append]
        simp only [List.map_cons, List.map_nil]
        rw [posSpeakers_cons_pos hpos, List.filter_cons_of_pos (by simpa using hmem)]
        simp only [List.map_cons, List.append_assoc]
        congr 1
        · apply List.map_congr_left
          intro kv hkv
          have : seg.speaker ≠ kv.1 :=
            fun hk => hmem (hk ▸ List.mem_map_of_mem Prod.fst hkv)
          rw [totalOverlap_cons, if_neg this, zero_add]
        rw [List.singleton_append, totalOverlap_cons, if_pos rfl, List.filter_filter]
        have hf : List.filter
              (fun sp => decide (sp ∉ acc.map Prod.fst) && decide (sp ≠ seg.speaker))
              (posSpeakers rest s e) =
            List.filter
              (fun sp => sp ∉ (acc.map Prod.fst) ++ [seg.speaker])
              (posSpeakers rest s e) := by
          apply List.filter_congr
          intro sp _
          by_cases h1 : sp = seg.speaker
          · simp [h1]
          · by_cases h2 : sp ∈ acc.map Prod.fst <;> simp [h1, h2]
        rw [← hf]
        refine congrArg (List.cons _) ?_
        apply List.map_congr_left
        intro sp hsp
        simp only [List.mem_filter, Bool.and_eq_true, decide_eq_true_eq] at hsp
        have : seg.speaker ≠ sp := fun hk => hsp.2.2 hk.symm
        rw [totalOverlap_cons, if_neg this, zero_add]
    · have hz : overlapDur s e seg = 0 :=
        le_antisymm (not_lt.mp hpos) (overlapDur_nonneg s e seg)
      rw [overlapStep_nonpos acc hpos, ih _ hnd, posSpeakers_cons_nonpos hpos]
      congr 1
      · apply List.map_congr_left
        intro kv _
        rw [totalOverlap_cons, hz, ite_self, zero_add]
      · apply List.map_congr_left
        intro sp _
        rw [totalOverlap_cons, hz, ite_self, zero_add]

/-- The `speaker_overlaps` dict is exactly the positive-overlap speakers, in
first-positive-contribution order, paired with their accumulated totals. -/
lemma speakerOverlaps_eq (segs : List DiarSeg) (s e : ℚ) :
    speakerOverlaps segs s e =
      (posSpeakers segs s e).map (fun sp => (sp, totalOverlap segs s e sp)) := by
  rw [speakerOverlaps, speakerOverlaps_go s e segs [] (by simp)]
  simp

lemma firstMax_cons (k : String) (v : ℚ) (l : List (String × ℚ)) :
    firstMax ((k, v) :: l) = some (firstMaxGo k v l) := rfl

/-- `max(..., key=...)` splits its input at the first maximal entry: every
entry is bounded by its value and every earlier entry is strictly below. -/
lemma firstMaxGo_split :
    ∀ (l : List (String × ℚ)) (k : String) (v : ℚ),
      ∃ l₁ l₂ vr, (k, v) :: l = l₁ ++ (firstMaxGo k v l, vr) :: l₂ ∧
        (∀ p ∈ (k, v) :: l, p.2 ≤ vr) ∧ (∀ p ∈ l₁, p.2 < vr) := by
  intro l
  induction l with
  | nil =>
    intro k v
    refine ⟨[], [], v, by simp [firstMaxGo], ?_, by simp⟩
    intro p hp
    simp only [List.mem_singleton] at hp
    subst hp
    exact le_rfl
  | cons q rest ih =>
    intro k v
    obtain ⟨k₂, v₂⟩ := q
    rw [firstMaxGo]
    by_cases h : v < v₂
    · rw [if_pos h]
      obtain ⟨l₁, l₂, vr, heq, hle, hlt⟩ := ih k₂ v₂
      have hv₂ : v₂ ≤ vr := hle (k₂, v₂) (List.mem_cons_self _ _)
      refine ⟨(k, v) :: l₁, l₂, vr, ?_, ?_, ?_⟩
      · rw [List.cons_append, ← heq]
      · intro p hp
        rcases List.mem_cons.mp hp with rfl | hp2
        · exact le_of_lt (lt_of_lt_of_le h hv₂)
        · exact hle p hp2
      · intro p hp
        rcases List.mem_cons.mp hp with rfl | hp2
        · exact lt_of_lt_of_le h hv₂
        · exact hlt p hp2
    · rw [if_neg h]
      have hv₂ : v₂ ≤ v := not_lt.mp h
      obtain ⟨l₁, l₂, vr, heq, hle, hlt⟩ := ih k v
      have hv : v ≤ vr := hle (k, v) (List.mem_cons_self _ _)
      cases l₁ with
      | nil =>
        simp only [List.nil_append] at heq
        injection heq with h1 h2
        refine ⟨[], (k₂, v₂) :: l₂, vr, ?_, ?_, by simp⟩
        · rw [List.nil_append, ← h1, h2]
        · intro p hp
          rcases List.mem_cons.mp hp with rfl | hp2
          · exact hv
          rcases List.mem_cons.mp hp2 with rfl | hp3
          · exact le_trans hv₂ hv
          · exact hle p (List.mem_cons_of_mem _ hp3)
      | cons x l₁t =>
        rw [List.cons_append] at heq
        injection heq with h1 h2
        have hxlt : v < vr := by
          have := hlt x (List.mem_cons_self _ _)
          rw [← h1] at this
          exact this
        refine ⟨(k, v) :: (k₂, v₂) :: l₁t, l₂, vr, ?_, ?_, ?_⟩
        · rw [List.cons_append, List.cons_append, ← h2]
        · intro p hp
          rcases List.mem_cons.mp hp with rfl | hp2
          · exact hv
          rcases List.mem_cons.mp hp2 with rfl | hp3
          · exact le_trans hv₂ hv
          · exact hle p (List.mem_cons_of_mem _ hp3)
        · intro p hp
          rcases List.mem_cons.mp hp with rfl | hp2
          · exact hxlt
          rcases List.mem_cons.mp hp2 with rfl | hp3
          · exact lt_of_le_of_lt hv₂ hxlt
          · exact hlt p (List.mem_cons_of_mem _ hp3)

lemma totalOverlap_eq_zero {segs : List DiarSeg} {s e : ℚ} {sp : String}
    (h : sp ∉ posSpeakers segs s e) : totalOverlap segs s e sp = 0 := by
  apply List.sum_eq_zero
  intro x hx
  obtain ⟨seg, hseg, rfl⟩ := List.mem_map.mp hx
  rw [List.mem_filter, decide_eq_true_eq] at hseg
  by_contra hne
  have hpos : 0 < overlapDur s e seg :=
    lt_of_le_of_ne (overlapDur_nonneg s e seg) (fun hzero => hne hzero.symm)
  exact h (mem_posSpeakers.mpr ⟨seg, hseg.1, hseg.2, hpos⟩)

lemma totalOverlap_pos {segs : List DiarSeg} {s e : ℚ} {sp : String}
    (h : sp ∈ posSpeakers segs s e) : 0 < totalOverlap segs s e sp := by
  obtain ⟨seg, hseg, hsp, hpos⟩ := mem_posSpeakers.mp h
  have hmem : overlapDur s e seg ∈
      ((segs.filter (fun sg => sg.speaker = sp)).map (overlapDur s e)) :=
    List.mem_map_of_mem _ (List.mem_filter.mpr ⟨hseg, by simp [hsp]⟩)
  calc (0 : ℚ) < overlapDur s e seg := hpos
    _ ≤ totalOverlap segs s e sp := by
      apply List.single_le_sum _ _ hmem
      intro x hx
      obtain ⟨sg, _, rfl⟩ := List.mem_map.mp hx
      exact overlapDur_nonneg s e sg

/-- The nearest-segment loop, started on a champion pair, returns either the
champion (no strictly closer segment exists) or the first segment realising a
strictly smaller distance than the champion, all earlier segments being
strictly farther and all later ones no closer. -/
lemma nearestLoop_some (mid : ℚ) :
    ∀ (l : List DiarSeg) (sp : String) (d : ℚ),
      ∃ r, nearestLoop mid l (some (sp, d)) = some r ∧
        ((r = (sp, d) ∧ ∀ sg ∈ l, d ≤ |mid - (sg.start + sg.stop) / 2|) ∨
         (∃ pre q post, l = pre ++ q :: post ∧
            r = (q.speaker, |mid - (q.start + q.stop) / 2|) ∧ r.2 < d ∧
            (∀ sg ∈ pre, r.2 < |mid - (sg.start + sg.stop) / 2|) ∧
            (∀ sg ∈ post, r.2 ≤ |mid - (sg.start + sg.stop) / 2|))) := by
  intro l
  induction l with
  | nil =>
    intro sp d
    exact ⟨(sp, d), rfl, Or.inl ⟨rfl, by simp⟩⟩
  | cons sg rest ih =>
    intro sp d
    simp only [nearestLoop]
    by_cases hlt : |mid - (sg.start + sg.stop) / 2| < d
    · rw [if_pos hlt]
      obtain ⟨r, hr, hcase⟩ := ih sg.speaker |mid - (sg.start + sg.stop) / 2|
      refine ⟨r, hr, Or.inr ?_⟩
      rcases hcase with ⟨rfl, hall⟩ | ⟨pre, q, post, heq, hr2, hlt2, hpre, hpost⟩
      · exact ⟨[], sg, rest, rfl, rfl, hlt, by simp, hall⟩
      · refine ⟨sg :: pre, q, post, by rw [heq, List.cons_append], hr2,
          lt_trans hlt2 hlt, ?_, hpost⟩
        intro x hx
        rcases List.mem_cons.mp hx with rfl | hx2
        · exact hlt2
        · exact hpre x hx2
    · rw [if_neg hlt]
      obtain ⟨r, hr, hcase⟩ := ih sp d
      refine ⟨r, hr, ?_⟩
      rcases hcase with ⟨rfl, hall⟩ | ⟨pre, q, post, heq, hr2, hlt2, hpre, hpost⟩
      · refine Or.inl ⟨rfl, ?_⟩
        intro x hx
        rcases List.mem_cons.mp hx with rfl | hx2
        · exact not_lt.mp hlt
        · exact hall x hx2
      · refine Or.inr ⟨sg :: pre, q, post, by rw [heq, List.cons_append], hr2, hlt2, ?_, hpost⟩
        intro x hx
        rcases List.mem_cons.mp hx with rfl | hx2
        · exact lt_of_lt_of_le hlt2 (not_lt.mp hlt)
        · exact hpre x hx2

/-! ### Turn-aggregation lemmas -/

lemma runs_cons_nil (a : ASeg) {l : List ASeg} (h : runs l = []) :
    runs (a :: l) = [[a]] := by
  rw [runs, h]

lemma runs_cons_cons (a : ASeg) {l : List ASeg} {r : List ASeg} {rs : List (List ASeg)}
    (h : runs l = r :: rs) :
    runs (a :: l) =
      if a.speaker = (r.headD default).speaker then (a :: r) :: rs
      else [a] :: r :: rs := by
  rw [runs, h]

lemma runs_first (l : List ASeg) (a : ASeg) : ∃ r rs, runs (a :: l) = (a :: r) :: rs := by
  cases hr : runs l with
  | nil => exact ⟨[], [], runs_cons_nil a hr⟩
  | cons r rs =>
    by_cases h : a.speaker = (r.headD default).speaker
    · exact ⟨r, rs, by rw [runs_cons_cons a hr, if_pos h]⟩
    · exact ⟨[], r :: rs, by rw [runs_cons_cons a hr, if_neg h]⟩

lemma runs_eq_nil {l : List ASeg} : runs l = [] ↔ l = [] := by
  cases l with
  | nil => simp [runs]
  | cons a rest =>
    obtain ⟨r, rs, hr⟩ := runs_first rest a
    simp [hr]

lemma join_runs : ∀ l : List ASeg, (runs l).flatten = l := by
  intro l
  induction l with
  | nil => rfl
  | cons a rest ih =>
    cases hr : runs rest with
    | nil =>
      have : rest = [] := runs_eq_nil.mp hr
      subst this
      simp [runs_cons_nil a hr]
    | cons r rs =>
      rw [hr] at ih
      rw [runs_cons_cons a hr]
      by_cases h : a.speaker = (r.headD default).speaker
      · rw [if_pos h, List.flatten_cons]
        rw [List.flatten_cons] at ih
        rw [List.cons_append, ih]
      · rw [if_neg h, List.flatten_cons, List.singleton_append, ih]

lemma runs_mem_ne_nil : ∀ (l : List ASeg) (r : List ASeg), r ∈ runs l → r ≠ [] := by
  intro l
  induction l with
  | nil => intro r hr; simp [runs] at hr
  | cons a rest ih =>
    intro r hr
    cases hrr : runs rest with
    | nil =>
      rw [runs_cons_nil a hrr] at hr
      simp only [List.mem_singleton] at hr
      simp [hr]
    | cons r₀ rs =>
      rw [runs_cons_cons a hrr] at hr
      by_cases h : a.speaker = (r₀.headD default).speaker
      · rw [if_pos h] at hr
        rcases List.mem_cons.mp hr with rfl | hr2
        · simp
        · exact ih r (hrr ▸ List.mem_cons_of_mem _ hr2)
      · rw [if_neg h] at hr
        rcases List.mem_cons.mp hr with rfl | hr2
        · simp
        · exact ih r (hrr ▸ hr2)

lemma runs_mem_uniform : ∀ (l : List ASeg) (r : List ASeg), r ∈ runs l →
    ∀ x ∈ r, x.speaker = (r.headD default).speaker := by
  intro l
  induction l with
  | nil => intro r hr; simp [runs] at hr
  | cons a rest ih =>
    intro r hr
    cases hrr : runs rest with
    | nil =>
      rw [runs_cons_nil a hrr] at hr
      simp only [List.mem_singleton] at hr
      subst hr
      intro x hx
      simp only [List.mem_singleton] at hx
      simp [hx]
    | cons r₀ rs =>
      rw [runs_cons_cons a hrr] at hr
      by_cases h : a.speaker = (r₀.headD default).speaker
      · rw [if_pos h] at hr
        rcases List.mem_cons.mp hr with rfl | hr2
        · intro x hx
          rcases List.mem_cons.mp hx with rfl | hx2
          · rfl
          · have := ih r₀ (hrr ▸ List.mem_cons_self _ _) x hx2
            rw [List.headD_cons, this, ← h]
        · exact ih r (hrr ▸ List.mem_cons_of_mem _ hr2)
      · rw [if_neg h] at hr
        rcases List.mem_cons.mp hr with rfl | hr2
        · intro x hx
          rcases List.mem_cons.mp hx with rfl | hx2
          · rfl
          · simp at hx2
        · exact ih r (hrr ▸ hr2)

lemma runs_chain : ∀ l : List ASeg,
    List.Chain' (fun r₁ r₂ => (r₁.headD default).speaker ≠ (r₂.headD default).speaker)
      (runs l) := by
  intro l
  induction l with
  | nil => simp [runs]
  | cons a rest ih =>
    cases hrr : runs rest with
    | nil => rw [runs_cons_nil a hrr]; simp
    | cons r₀ rs =>
      rw [hrr] at ih
      rw [runs_cons_cons a hrr]
      by_cases h : a.speaker = (r₀.headD default).speaker
      · rw [if_pos h]
        cases rs with
        | nil => simp
        | cons r₁ rs₂ =>
          rw [List.chain'_cons] at ih ⊢
          refine ⟨?_, ih.2⟩
          rw [List.headD_cons, h]
          exact ih.1
      · rw [if_neg h]
        rw [List.chain'_cons]
        exact ⟨h, ih⟩

lemma runs_of_uniform : ∀ (p : List ASeg), p ≠ [] →
    (∀ x ∈ p, x.speaker = (p.headD default).speaker) → runs p = [p] := by
  intro p
  induction p with
  | nil => intro h; cases h rfl
  | cons a tail ih =>
    intro _ hu
    cases tail with
    | nil => simp [runs]
    | cons b tail₂ =>
      have hba : b.speaker = a.speaker := hu b (List.mem_cons_of_mem _ (List.mem_cons_self _ _))
      have htail : runs (b :: tail₂) = [b :: tail₂] := by
        apply ih (by simp)
        intro x hx
        rw [List.headD_cons, hba]
        exact hu x (List.mem_cons_of_mem _ hx)
      rw [runs_cons_cons a htail, if_pos (by rw [List.headD_cons, hba])]

lemma runs_append : ∀ (p : List ASeg), p ≠ [] →
    (∀ x ∈ p, x.speaker = (p.headD default).speaker) →
    ∀ (b : ASeg) (l : List ASeg), b.speaker ≠ (p.headD default).speaker →
      runs (p ++ b :: l) = p :: runs (b :: l) := by
  intro p
  induction p with
  | nil => intro h; cases h rfl
  | cons a tail ih =>
    intro _ hu b l hb
    rw [List.headD_cons] at hb
    cases tail with
    | nil =>
      obtain ⟨r, rs, hbr⟩ := runs_first l b
      rw [List.singleton_append, runs_cons_cons a hbr,
        if_neg (by rw [List.headD_cons]; exact fun h => hb h.symm), ← hbr]
    | cons c tail₂ =>
      have hca : c.speaker = a.speaker := hu c (List.mem_cons_of_mem _ (List.mem_cons_self _ _))
      have hrec : runs ((c :: tail₂) ++ b :: l) = (c :: tail₂) :: runs (b :: l) := by
        apply ih (by simp) ?_ b l (by rw [List.headD_cons, hca]; exact hb)
        intro x hx
        rw [List.headD_cons, hca]
        exact hu x (List.mem_cons_of_mem _ hx)
      rw [List.cons_append, runs_cons_cons a hrec, if_pos (by rw [List.headD_cons, hca])]

lemma joinSpace_append (l : List String) (t : String) (h : l ≠ []) :
    joinSpace (l ++ [t]) = joinSpace l ++ " " ++ t := by
  induction l with
  | nil => cases h rfl
  | cons x xs ih =>
    cases xs with
    | nil => rfl
    | cons y ys =>
      rw [List.cons_append, List.cons_append, joinSpace, ← List.cons_append, ih (by simp),
        joinSpace]
      simp [String.append_assoc]

lemma mkTurn_singleton (seg : ASeg) :
    mkTurn [seg] =
      { speaker := seg.speaker, start := seg.start, stop := seg.stop, text := seg.text } := rfl

lemma mkTurn_extend (p : List ASeg) (a : ASeg) (hp : p ≠ []) :
    { mkTurn p with stop := a.stop, text := (mkTurn p).text ++ " " ++ a.text } =
      mkTurn (p ++ [a]) := by
  obtain ⟨x, p₂, rfl⟩ := List.exists_cons_of_ne_nil hp
  rw [mkTurn, mkTurn]
  simp only [Turn.mk.injEq]
  refine ⟨?_, ?_, ?_, ?_⟩
  · rw [List.cons_append, List.headD_cons, List.headD_cons]
  · rw [List.cons_append, List.headD_cons, List.headD_cons]
  · rw [List.getLast?_concat]
    rfl
  · rw [List.map_append]
    simp only [List.map_cons, List.map_nil]
    rw [joinSpace_append _ _ (by simp)]

lemma turnStep_some (done : List Turn) (cur : Turn) (seg : ASeg) :
    turnStep (done, some cur) seg =
      if seg.speaker = cur.speaker then
        (done, some { cur with stop := seg.stop, text := cur.text ++ " " ++ seg.text })
      else
        (done ++ [cur],
         some { speaker := seg.speaker, start := seg.start, stop := seg.stop,
                text := seg.text }) := rfl

lemma turnStep_none (done : List Turn) (seg : ASeg) :
    turnStep (done, none) seg =
      (done, some { speaker := seg.speaker, start := seg.start, stop := seg.stop,
                    text := seg.text }) := rfl

lemma mkTurn_speaker (run : List ASeg) :
    (mkTurn run).speaker = (run.headD default).speaker := rfl

lemma headD_append {α : Type} (p l : List α) (d : α) (hp : p ≠ []) :
    (p ++ l).headD d = p.headD d := by
  obtain ⟨x, xs, rfl⟩ := List.exists_cons_of_ne_nil hp
  rw [List.cons_append, List.headD_cons, List.headD_cons]

/-- The grouping-loop invariant: with `done` emitted and a nonempty
same-speaker pending run `p` open, folding the remaining segments and
closing yields `done` followed by the turns of the runs of `p ++ segs`. -/
lemma agg_go :
    ∀ (segs : List ASeg) (done : List Turn) (p : List ASeg), p ≠ [] →
      (∀ x ∈ p, x.speaker = (p.headD default).speaker) →
      finishTurns (segs.foldl turnStep (done, some (mkTurn p))) =
        done ++ (runs (p ++ segs)).map mkTurn := by
  intro segs
  induction segs with
  | nil =>
    intro done p hp hu
    rw [List.foldl_nil, List.append_nil, runs_of_uniform p hp hu, List.map_cons, List.map_nil]
    rfl
  | cons seg rest ih =>
    intro done p hp hu
    rw [List.foldl_cons, turnStep_some]
    by_cases hsp : seg.speaker = (mkTurn p).speaker
    · rw [if_pos hsp, mkTurn_extend p seg hp,
        ih done (p ++ [seg]) (by simp) ?_, List.append_assoc, List.singleton_append]
      intro x hx
      rcases List.mem_append.mp hx with hx2 | hx2
      · rw [headD_append p [seg] default hp]
        exact hu x hx2
      · simp only [List.mem_singleton] at hx2
        subst hx2
        rw [headD_append p [x] default hp, hsp, mkTurn_speaker]
    · have hmk :
          ({ speaker := seg.speaker, start := seg.start, stop := seg.stop, text := seg.text } :
            Turn) = mkTurn [seg] := rfl
      rw [if_neg hsp, hmk,
        ih (done ++ [mkTurn p]) [seg] (by simp)
          (by intro x hx; simp only [List.mem_singleton] at hx; simp [hx]),
        runs_append p hp hu seg rest (by rw [← mkTurn_speaker]; exact hsp),
        List.map_cons, List.singleton_append, List.append_assoc, List.singleton_append]

/-- The grouping loop of `format_transcription_diarized` computes exactly the
turns of the maximal same-speaker runs. -/
lemma aggregateTurns_eq (segs : List ASeg) :
    aggregateTurns segs = (runs segs).map mkTurn := by
  cases segs with
  | nil => rfl
  | cons a rest =>
    have hmk :
        ({ speaker := a.speaker, start := a.start, stop := a.stop, text := a.text } :
          Turn) = mkTurn [a] := rfl
    rw [aggregateTurns, List.foldl_cons, turnStep_none, hmk,
      agg_go rest [] [a] (by simp)
        (by intro x hx; simp only [List.mem_singleton] at hx; simp [hx]),
      List.singleton_append, List.nil_append]

lemma heads_sublist :
    ∀ (L : List (List ASeg)), (∀ r ∈ L, r ≠ []) →
      (L.map (fun r => r.headD default)).Sublist L.flatten := by
  intro L
  induction L with
  | nil => intro _; simp
  | cons r L₂ ih =>
    intro hne
    obtain ⟨x, xs, rfl⟩ := List.exists_cons_of_ne_nil (hne r (List.mem_cons_self _ _))
    rw [List.map_cons, List.flatten_cons, List.headD_cons, List.cons_append]
    refine List.Sublist.cons₂ x ?_
    exact List.Sublist.trans (ih (fun r hr => hne r (List.mem_cons_of_mem _ hr)))
      (List.sublist_append_right xs L₂.flatten)

/-! ### Merge lemmas -/

lemma merge_go (d : List DiarSeg) :
    ∀ (l : List TSeg) (acc : List ASeg),
      l.foldl
        (fun merged segment =>
          merged ++
            [{ speaker := get_speaker_at_time d segment.start segment.stop
               start := segment.start
               stop := segment.stop
               text := segment.text.trim }]) acc =
      acc ++ l.map (fun t =>
        { speaker := get_speaker_at_time d t.start t.stop
          start := t.start
          stop := t.stop
          text := t.text.trim }) := by
  intro l
  induction l with
  | nil => intro acc; rw [List.foldl_nil, List.map_nil, List.append_nil]
  | cons t ts ih =>
    intro acc
    rw [List.foldl_cons, ih, List.map_cons, List.append_assoc, List.singleton_append]

lemma merge_eq_map (w : WhisperResult) (d : List DiarSeg) :
    merge_transcription_with_diarization w d =
      w.segments.map (fun t =>
        { speaker := get_speaker_at_time d t.start t.stop
          start := t.start
          stop := t.stop
          text := t.text.trim }) := by
  rw [merge_transcription_with_diarization, merge_go d w.segments [], List.nil_append]

lemma merge_length (w : WhisperResult) (d : List DiarSeg) :
    (merge_transcription_with_diarization w d).length = w.segments.length := by
  rw [merge_eq_map, List.length_map]

/-! ### Timestamp lemmas -/

lemma pyint_intCast (z : ℤ) : pyint (z : ℚ) = z := by
  rw [pyint]
  by_cases h : (0 : ℚ) ≤ (z : ℚ)
  · rw [if_pos h, Int.floor_intCast]
  · rw [if_neg h, ← Int.cast_neg, Int.floor_intCast, neg_neg]

lemma pyint_eq_floor {q : ℚ} (h : 0 ≤ q) : pyint q = ⌊q⌋ := if_pos h

lemma pyint_pyfloordiv_nat (x : ℚ) (hx : 0 ≤ x) (n : ℕ) :
    pyint (pyfloordiv x (n : ℚ)) = ((⌊x⌋₊ / n : ℕ) : ℤ) := by
  rw [pyfloordiv, pyint_intCast, ← Nat.floor_div_nat x n]
  exact (Int.natCast_floor_eq_floor (by positivity)).symm

lemma pymod_eq_sub (s : ℚ) (hs : 0 ≤ s) (n : ℕ) :
    pymod s (n : ℚ) = s - ((n * (⌊s⌋₊ / n) : ℕ) : ℚ) := by
  rw [pymod]
  congr 1
  push_cast
  rw [← Nat.floor_div_nat s n]
  congr 1
  exact_mod_cast (Int.natCast_floor_eq_floor (a := s / (n : ℚ)) (by positivity)).symm

lemma pymod_cast_le (s : ℚ) (hs : 0 ≤ s) (n : ℕ) :
    ((n * (⌊s⌋₊ / n) : ℕ) : ℚ) ≤ s :=
  le_trans (by exact_mod_cast Nat.mul_div_le ⌊s⌋₊ n) (Nat.floor_le hs)

lemma pymod_nonneg (s : ℚ) (hs : 0 ≤ s) (n : ℕ) : 0 ≤ pymod s (n : ℚ) := by
  rw [pymod_eq_sub s hs n]
  exact sub_nonneg.mpr (pymod_cast_le s hs n)

lemma natFloor_pymod (s : ℚ) (hs : 0 ≤ s) (n : ℕ) : ⌊pymod s (n : ℚ)⌋₊ = ⌊s⌋₊ % n := by
  rw [pymod_eq_sub s hs n, Nat.floor_sub_nat]
  have := Nat.div_add_mod ⌊s⌋₊ n
  omega

lemma pyint_pymod (s : ℚ) (hs : 0 ≤ s) (n : ℕ) :
    pyint (pymod s (n : ℚ)) = ((⌊s⌋₊ % n : ℕ) : ℤ) := by
  rw [pyint_eq_floor (pymod_nonneg s hs n), ← natFloor_pymod s hs n]
  exact (Int.natCast_floor_eq_floor (pymod_nonneg s hs n)).symm

lemma toString_natCast (m : ℕ) : toString ((m : ℕ) : ℤ) = toString m := rfl

lemma pad2_natCast (m : ℕ) : pad2 ((m : ℕ) : ℤ) = pad2Nat m := by
  rw [pad2, pad2Nat]
  by_cases h : m < 10
  · rw [if_pos ⟨Int.natCast_nonneg m, by exact_mod_cast h⟩, if_pos h, toString_natCast]
  · rw [if_neg (fun hc => h (by exact_mod_cast hc.2)), if_neg h, toString_natCast]

/-- `format_timestamp` on a nonnegative number of seconds renders exactly the
truncated whole-second count in the spec's `H:MM:SS` / `M:SS` shape. -/
lemma format_timestamp_eq (s : ℚ) (hs : 0 ≤ s) : format_timestamp s = renderSpec ⌊s⌋₊ := by
  have h3600 : ((3600 : ℕ) : ℚ) = (3600 : ℚ) := by norm_num
  have h60 : ((60 : ℕ) : ℚ) = (60 : ℚ) := by norm_num
  have hhours : pyint (pyfloordiv s 3600) = ((⌊s⌋₊ / 3600 : ℕ) : ℤ) := by
    rw [← h3600, pyint_pyfloordiv_nat s hs 3600]
  have hmod : 0 ≤ pymod s 3600 := by rw [← h3600]; exact pymod_nonneg s hs 3600
  have hminutes : pyint (pyfloordiv (pymod s 3600) 60) = ((⌊s⌋₊ % 3600 / 60 : ℕ) : ℤ) := by
    rw [← h60, pyint_pyfloordiv_nat (pymod s 3600) hmod 60, ← h3600, natFloor_pymod s hs 3600]
  have hsecs : pyint (pymod s 60) = ((⌊s⌋₊ % 60 : ℕ) : ℤ) := by
    rw [← h60, pyint_pymod s hs 60]
  have hcond : (0 < ((⌊s⌋₊ / 3600 : ℕ) : ℤ)) ↔ (3600 ≤ ⌊s⌋₊) := by
    constructor
    · intro h
      have h2 : 0 < ⌊s⌋₊ / 3600 := by exact_mod_cast h
      have := (Nat.le_div_iff_mul_le (by norm_num : 0 < 3600)).mp h2
      omega
    · intro h
      have h2 : 1 ≤ ⌊s⌋₊ / 3600 :=
        (Nat.le_div_iff_mul_le (by norm_num : 0 < 3600)).mpr (by omega)
      exact_mod_cast h2
  rw [format_timestamp, renderSpec]
  simp only [hhours, hminutes, hsecs, pad2_natCast, toString_natCast]
  by_cases hbr : 3600 ≤ ⌊s⌋₊
  · rw [if_pos (hcond.mpr hbr), if_pos hbr]
  · rw [if_neg (fun hlt => hbr (hcond.mp hlt)), if_neg hbr, Nat.mod_eq_of_lt (by omega)]

/-! ### Branch characterizations of `get_speaker_at_time` -/

/-- Overlap branch: when some segment overlaps the window, the resolver
returns the first speaker attaining the maximal accumulated overlap, in
first-positive-contribution order. -/
lemma get_speaker_overlap (segs : List DiarSeg) (s e : ℚ)
    (h : ∃ seg ∈ segs, 0 < overlapDur s e seg) :
    ∃ pre post,
      posSpeakers segs s e = pre ++ get_speaker_at_time segs s e :: post ∧
      (∀ sp ∈ posSpeakers segs s e,
        totalOverlap segs s e sp ≤ totalOverlap segs s e (get_speaker_at_time segs s e)) ∧
      (∀ sp ∈ pre,
        totalOverlap segs s e sp < totalOverlap segs s e (get_speaker_at_time segs s e)) := by
  obtain ⟨seg₀, hseg₀, hpos₀⟩ := h
  have hmem : seg₀.speaker ∈ posSpeakers segs s e :=
    mem_posSpeakers.mpr ⟨seg₀, hseg₀, rfl, hpos₀⟩
  have hne : segs ≠ [] := by rintro rfl; simp at hseg₀
  obtain ⟨sp₀, tl, hps⟩ : ∃ a l, posSpeakers segs s e = a :: l := by
    cases hcase : posSpeakers segs s e with
    | nil => rw [hcase] at hmem; cases hmem
    | cons a l => exact ⟨a, l, rfl⟩
  have hempty : segs.isEmpty = false := by
    cases segs with
    | nil => cases hne rfl
    | cons a l => rfl
  have hso : speakerOverlaps segs s e =
      (sp₀, totalOverlap segs s e sp₀) ::
        tl.map (fun sp => (sp, totalOverlap segs s e sp)) := by
    rw [speakerOverlaps_eq, hps, List.map_cons]
  have hres : get_speaker_at_time segs s e =
      firstMaxGo sp₀ (totalOverlap segs s e sp₀)
        (tl.map (fun sp => (sp, totalOverlap segs s e sp))) := by
    rw [get_speaker_at_time, hempty, hso]
    rfl
  obtain ⟨l₁, l₂, vr, heq, hle, hlt⟩ :=
    firstMaxGo_split (tl.map (fun sp => (sp, totalOverlap segs s e sp))) sp₀
      (totalOverlap segs s e sp₀)
  rw [← hres] at heq
  have hmapf : (posSpeakers segs s e).map (fun sp => (sp, totalOverlap segs s e sp)) =
      l₁ ++ (get_speaker_at_time segs s e, vr) :: l₂ := by
    rw [hps, List.map_cons, heq]
  have hmemmid : (get_speaker_at_time segs s e, vr) ∈
      (posSpeakers segs s e).map (fun sp => (sp, totalOverlap segs s e sp)) := by
    rw [hmapf]
    exact List.mem_append.mpr (Or.inr (List.mem_cons_self _ _))
  obtain ⟨spr, hspr, hsprq⟩ := List.mem_map.mp hmemmid
  have hspr1 : spr = get_speaker_at_time segs s e := congrArg Prod.fst hsprq
  have hvr : vr = totalOverlap segs s e (get_speaker_at_time segs s e) := by
    have := congrArg Prod.snd hsprq
    simp only at this
    rw [← this, hspr1]
  have hsplit : posSpeakers segs s e =
      l₁.map Prod.fst ++ get_speaker_at_time segs s e :: l₂.map Prod.fst := by
    have h2 := congrArg (List.map Prod.fst) hmapf
    rw [List.map_map, List.map_append, List.map_cons] at h2
    have h3 : (posSpeakers segs s e).map
        (Prod.fst ∘ fun sp => (sp, totalOverlap segs s e sp)) =
          (posSpeakers segs s e).map id := List.map_congr_left (fun a _ => rfl)
    rw [List.map_id] at h3
    rw [h3] at h2
    exact h2
  refine ⟨l₁.map Prod.fst, l₂.map Prod.fst, hsplit, ?_, ?_⟩
  · intro sp hsp
    have hmem2 : (sp, totalOverlap segs s e sp) ∈
        (sp₀, totalOverlap segs s e sp₀) ::
          tl.map (fun sp => (sp, totalOverlap segs s e sp)) := by
      have hm := List.mem_map_of_mem (fun sp => (sp, totalOverlap segs s e sp)) hsp
      rw [hps, List.map_cons] at hm
      exact hm
    have := hle _ hmem2
    rw [hvr] at this
    exact this
  · intro sp hsp
    obtain ⟨p, hp, hp1⟩ := List.mem_map.mp hsp
    have hpmem : p ∈ (posSpeakers segs s e).map
        (fun sp => (sp, totalOverlap segs s e sp)) := by
      rw [hmapf]
      exact List.mem_append.mpr (Or.inl hp)
    obtain ⟨sp₂, hsp₂, hsp₂q⟩ := List.mem_map.mp hpmem
    have hsp₂1 : sp₂ = sp := by rw [← hp1, ← hsp₂q]
    have hp2 : p.2 = totalOverlap segs s e sp := by
      rw [← hsp₂q, ← hsp₂1]
    have := hlt p hp
    rw [hvr, hp2] at this
    exact this

/-- Fallback branch: when no segment overlaps the window, the resolver
returns the (default-replaced when falsy) speaker of the first segment
attaining the minimal midpoint distance. -/
lemma get_speaker_fallback (segs : List DiarSeg) (s e : ℚ) (hne : segs ≠ [])
    (hno : ∀ seg ∈ segs, ¬ 0 < overlapDur s e seg) :
    ∃ pre q post, segs = pre ++ q :: post ∧
      get_speaker_at_time segs s e = (if q.speaker = "" then "SPEAKER_00" else q.speaker) ∧
      (∀ sg ∈ segs, midDist s e q ≤ midDist s e sg) ∧
      (∀ sg ∈ pre, midDist s e q < midDist s e sg) := by
  have hps : posSpeakers segs s e = [] := by
    cases hcase : posSpeakers segs s e with
    | nil => rfl
    | cons a l =>
      have hmem : a ∈ posSpeakers segs s e := by rw [hcase]; exact List.mem_cons_self _ _
      obtain ⟨seg, hseg, _, hpos⟩ := mem_posSpeakers.mp hmem
      exact absurd hpos (hno seg hseg)
  have hso : speakerOverlaps segs s e = [] := by
    rw [speakerOverlaps_eq, hps, List.map_nil]
  obtain ⟨sg₀, tl, rfl⟩ := List.exists_cons_of_ne_nil hne
  obtain ⟨r, hr, hcase⟩ :=
    nearestLoop_some ((s + e) / 2) tl sg₀.speaker
      |((s + e) / 2) - (sg₀.start + sg₀.stop) / 2|
  obtain ⟨rsp, rd⟩ := r
  have hres : get_speaker_at_time (sg₀ :: tl) s e =
      (if rsp = "" then "SPEAKER_00" else rsp) := by
    rw [get_speaker_at_time, hso]
    show (match nearestLoop ((s + e) / 2) (sg₀ :: tl) none with
      | some (sp, _) => if sp = "" then "SPEAKER_00" else sp
      | none => "SPEAKER_00") = _
    rw [show nearestLoop ((s + e) / 2) (sg₀ :: tl) none =
        nearestLoop ((s + e) / 2) tl
          (some (sg₀.speaker, |((s + e) / 2) - (sg₀.start + sg₀.stop) / 2|)) from rfl, hr]
  rcases hcase with ⟨req, hall⟩ | ⟨pre, q, post, heq, hr2, hlt2, hpre, hpost⟩
  · have h1 : rsp = sg₀.speaker := congrArg Prod.fst req
    have h2 : rd = |((s + e) / 2) - (sg₀.start + sg₀.stop) / 2| := congrArg Prod.snd req
    refine ⟨[], sg₀, tl, rfl, ?_, ?_, by simp⟩
    · rw [hres, h1]
    · intro sg hsg
      rcases List.mem_cons.mp hsg with rfl | hsg2
      · exact le_refl _
      · exact hall sg hsg2
  · have h1 : rsp = q.speaker := congrArg Prod.fst hr2
    have h2 : rd = |((s + e) / 2) - (q.start + q.stop) / 2| := congrArg Prod.snd hr2
    refine ⟨sg₀ :: pre, q, post, by rw [heq, List.cons_append], ?_, ?_, ?_⟩
    · rw [hres, h1]
    · intro sg hsg
      have hqd : midDist s e q ≤ rd := le_of_eq h2.symm
      rcases List.mem_cons.mp hsg with rfl | hsg2
      · exact le_of_lt (lt_of_le_of_lt hqd hlt2)
      · rw [heq] at hsg2
        rcases List.mem_append.mp hsg2 with hx | hx
        · exact le_of_lt (lt_of_le_of_lt hqd (h2 ▸ hpre sg hx))
        rcases List.mem_cons.mp hx with rfl | hx2
        · exact le_refl _
        · exact le_trans hqd (h2 ▸ hpost sg hx2)
    · intro sg hsg
      have hqd : midDist s e q ≤ rd := le_of_eq h2.symm
      rcases List.mem_cons.mp hsg with rfl | hsg2
      · exact lt_of_le_of_lt hqd hlt2
      · exact lt_of_le_of_lt hqd (h2 ▸ hpre sg hsg2)

/-! ## Claims -/

/-- Claim C3: for every query window (any start and end values), if the
diarization segment sequence is empty, the speaker resolver returns the
fixed default label `"SPEAKER_00"`. -/
theorem claim_C3_default_on_empty :
    ∀ s e : ℚ, get_speaker_at_time [] s e = "SPEAKER_00" :=
  fun _ _ => rfl

/-- Claim C8: the speaker resolver is a pure, total function of its
arguments: two invocations on identical inputs (with `end ≥ start`) return
the identical label. In this embedding the function is total by
construction (it always returns a `String`), and it has no effects. -/
theorem claim_C8_deterministic :
    ∀ (segs segs₂ : List DiarSeg) (s e s₂ e₂ : ℚ), s ≤ e →
      segs = segs₂ → s = s₂ → e = e₂ →
      get_speaker_at_time segs s e = get_speaker_at_time segs₂ s₂ e₂ := by
  intro segs segs₂ s e s₂ e₂ _ h1 h2 h3
  rw [h1, h2, h3]

/-- Witness for C8 at a concrete input. -/
theorem claim_C8_witness :
    get_speaker_at_time [⟨0, 5, "A"⟩] 1 2 = get_speaker_at_time [⟨0, 5, "A"⟩] 1 2 :=
  claim_C8_deterministic [⟨0, 5, "A"⟩] [⟨0, 5, "A"⟩] 1 2 1 2 (by norm_num) rfl rfl rfl

/-- Claim C9: the label the resolver returns is either the default
`"SPEAKER_00"` or the speaker field of some input segment; it never
fabricates a new label. -/
theorem claim_C9_no_fabricated_label :
    ∀ (segs : List DiarSeg) (s e : ℚ),
      get_speaker_at_time segs s e = "SPEAKER_00" ∨
      ∃ seg ∈ segs, seg.speaker = get_speaker_at_time segs s e := by
  intro segs s e
  by_cases hne : segs = []
  · subst hne
    exact Or.inl rfl
  by_cases hov : ∃ seg ∈ segs, 0 < overlapDur s e seg
  · obtain ⟨pre, post, hsplit, _, _⟩ := get_speaker_overlap segs s e hov
    have hmem : get_speaker_at_time segs s e ∈ posSpeakers segs s e := by
      rw [hsplit]
      exact List.mem_append.mpr (Or.inr (List.mem_cons_self _ _))
    obtain ⟨seg, hseg, hsp, _⟩ := mem_posSpeakers.mp hmem
    exact Or.inr ⟨seg, hseg, hsp⟩
  · have hno : ∀ seg ∈ segs, ¬ 0 < overlapDur s e seg :=
      fun seg hseg hpos => hov ⟨seg, hseg, hpos⟩
    obtain ⟨pre, q, post, hsegs, hres, _, _⟩ := get_speaker_fallback segs s e hne hno
    by_cases hq : q.speaker = ""
    · exact Or.inl (by rw [hres, if_pos hq])
    · refine Or.inr ⟨q, ?_, by rw [hres, if_neg hq]⟩
      rw [hsegs]
      exact List.mem_append.mpr (Or.inr (List.mem_cons_self _ _))

/-- Claim C10: merging produces exactly one attributed segment per
transcription segment, in order; `start` and `end` are copied unchanged,
the text is the input text stripped of surrounding whitespace, and the
speaker is the resolver's output on the segment's window. -/
theorem claim_C10_merge_frame :
    ∀ (w : WhisperResult) (d : List DiarSeg),
      (merge_transcription_with_diarization w d).length = w.segments.length ∧
      ∀ (i : ℕ) (hi : i < w.segments.length)
        (hi2 : i < (merge_transcription_with_diarization w d).length),
        ((merge_transcription_with_diarization w d).get ⟨i, hi2⟩).start =
            (w.segments.get ⟨i, hi⟩).start ∧
        ((merge_transcription_with_diarization w d).get ⟨i, hi2⟩).stop =
            (w.segments.get ⟨i, hi⟩).stop ∧
        ((merge_transcription_with_diarization w d).get ⟨i, hi2⟩).text =
            (w.segments.get ⟨i, hi⟩).text.trim ∧
        ((merge_transcription_with_diarization w d).get ⟨i, hi2⟩).speaker =
          get_speaker_at_time d (w.segments.get ⟨i, hi⟩).start
            (w.segments.get ⟨i, hi⟩).stop := by
  intro w d
  refine ⟨merge_length w d, ?_⟩
  intro i hi hi2
  simp [List.get_eq_getElem, merge_eq_map]

/-- Witness for C10 at a concrete input. -/
theorem claim_C10_witness :
    (merge_transcription_with_diarization ⟨[⟨0, 1, " hi "⟩]⟩ []).length = 1 ∧
    ((merge_transcription_with_diarization ⟨[⟨0, 1, " hi "⟩]⟩ []).get
      ⟨0, by rw [merge_length]; norm_num⟩).start = 0 ∧
    ((merge_transcription_with_diarization ⟨[⟨0, 1, " hi "⟩]⟩ []).get
      ⟨0, by rw [merge_length]; norm_num⟩).text = (" hi " : String).trim := by
  obtain ⟨hlen, hfields⟩ := claim_C10_merge_frame ⟨[⟨0, 1, " hi "⟩]⟩ []
  have h := hfields 0 (by norm_num) (by rw [merge_length]; norm_num)
  exact ⟨hlen, h.1, h.2.2.1⟩

/-- Claim C1, counterexample to the stated tie-break: on the segments
`[(2,3,"A"), (0,1,"B"), (0,1,"A")]` and window `(0,1)`, speakers A and B tie
in accumulated overlap and A is the first-encountered speaker in plain
segment iteration order, yet the resolver returns B (whose first
positive-overlap contribution comes first). -/
theorem claim_C1_counterexample :
    (∃ seg ∈ ([⟨2, 3, "A"⟩, ⟨0, 1, "B"⟩, ⟨0, 1, "A"⟩] : List DiarSeg),
      0 < overlapDur 0 1 seg) ∧
    totalOverlap [⟨2, 3, "A"⟩, ⟨0, 1, "B"⟩, ⟨0, 1, "A"⟩] 0 1 "A" =
      totalOverlap [⟨2, 3, "A"⟩, ⟨0, 1, "B"⟩, ⟨0, 1, "A"⟩] 0 1 "B" ∧
    firstOccur (([⟨2, 3, "A"⟩, ⟨0, 1, "B"⟩, ⟨0, 1, "A"⟩] : List DiarSeg).map DiarSeg.speaker) =
      ["A", "B"] ∧
    get_speaker_at_time [⟨2, 3, "A"⟩, ⟨0, 1, "B"⟩, ⟨0, 1, "A"⟩] 0 1 = "B" := by
  refine ⟨⟨⟨0, 1, "B"⟩, by norm_num, by norm_num [overlapDur]⟩, ?_, ?_, ?_⟩
  · have hA : totalOverlap [⟨2, 3, "A"⟩, ⟨0, 1, "B"⟩, ⟨0, 1, "A"⟩] 0 1 "A" = 1 := by
      rw [totalOverlap, List.filter_cons_of_pos (by decide), List.filter_cons_of_neg (by decide),
        List.filter_cons_of_pos (by decide), List.filter_nil, List.map_cons, List.map_cons,
        List.map_nil, List.sum_cons, List.sum_cons, List.sum_nil]
      norm_num [overlapDur]
    have hB : totalOverlap [⟨2, 3, "A"⟩, ⟨0, 1, "B"⟩, ⟨0, 1, "A"⟩] 0 1 "B" = 1 := by
      rw [totalOverlap, List.filter_cons_of_neg (by decide), List.filter_cons_of_pos (by decide),
        List.filter_cons_of_neg (by decide), List.filter_nil, List.map_cons,
        List.map_nil, List.sum_cons, List.sum_nil]
      norm_num [overlapDur]
    rw [hA, hB]
  · simp [firstOccur]
  · norm_num [get_speaker_at_time, speakerOverlaps, overlapStep, overlapDur, addOverlap,
      firstMax, firstMaxGo] <;> decide

/-- Claim C1 (amended): when some diarization segment overlaps the window
(`end ≥ start`), the resolver returns the speaker with the greatest
accumulated overlap; a tie among maximal speakers is broken in favor of the
speaker whose first positive-overlap contribution occurs earliest in
segment iteration order (the position in `posSpeakers`), not the plain first
occurrence of the label. In particular, for segments
`[(0,5,"A"), (5,10,"B")]` and window `(3,7)` it returns `"A"`. -/
theorem claim_C1_overlap_argmax :
    (∀ (segs : List DiarSeg) (s e : ℚ), s ≤ e →
      (∃ seg ∈ segs, 0 < overlapDur s e seg) →
      ∃ pre post,
        posSpeakers segs s e = pre ++ get_speaker_at_time segs s e :: post ∧
        (∀ sp ∈ segs.map DiarSeg.speaker,
          totalOverlap segs s e sp ≤ totalOverlap segs s e (get_speaker_at_time segs s e)) ∧
        (∀ sp ∈ pre,
          totalOverlap segs s e sp < totalOverlap segs s e (get_speaker_at_time segs s e))) ∧
    get_speaker_at_time [⟨0, 5, "A"⟩, ⟨5, 10, "B"⟩] 3 7 = "A" := by
  constructor
  · intro segs s e _ h
    obtain ⟨pre, post, hsplit, hle, hlt⟩ := get_speaker_overlap segs s e h
    have hrmem : get_speaker_at_time segs s e ∈ posSpeakers segs s e := by
      rw [hsplit]
      exact List.mem_append.mpr (Or.inr (List.mem_cons_self _ _))
    refine ⟨pre, post, hsplit, ?_, hlt⟩
    intro sp hsp
    by_cases hpos : sp ∈ posSpeakers segs s e
    · exact hle sp hpos
    · rw [totalOverlap_eq_zero hpos]
      exact le_of_lt (totalOverlap_pos hrmem)
  · norm_num [get_speaker_at_time, speakerOverlaps, overlapStep, overlapDur, addOverlap,
      firstMax, firstMaxGo] <;> decide

/-- Witness for the amended C1 at the spec's concrete input. -/
theorem claim_C1_witness :
    get_speaker_at_time [⟨0, 5, "A"⟩, ⟨5, 10, "B"⟩] 3 7 = "A" :=
  claim_C1_overlap_argmax.2

/-- Claim C2, counterexample to the stated fallback: with the single
segment `[(0,2,"")]` and window `(4,5)` (no overlap), the nearest segment's
speaker is the empty string, but the resolver replaces the falsy label with
`"SPEAKER_00"`, which is no input segment's speaker. -/
theorem claim_C2_counterexample :
    (∀ seg ∈ ([⟨0, 2, ""⟩] : List DiarSeg), ¬ 0 < overlapDur 4 5 seg) ∧
    get_speaker_at_time [⟨0, 2, ""⟩] 4 5 = "SPEAKER_00" ∧
    ∀ seg ∈ ([⟨0, 2, ""⟩] : List DiarSeg), seg.speaker ≠ "SPEAKER_00" := by
  refine ⟨?_, ?_, by decide⟩
  · intro seg hseg
    simp only [List.mem_singleton] at hseg
    subst hseg
    norm_num [overlapDur]
  · norm_num [get_speaker_at_time, speakerOverlaps, overlapStep, overlapDur, addOverlap,
      firstMax, firstMaxGo, nearestLoop, abs_of_nonneg, abs_of_nonpos] <;> decide

/-- Claim C2 (amended): when no diarization segment overlaps the window
(`end ≥ start`, sequence nonempty), the resolver selects the first segment
whose midpoint is nearest the window midpoint and returns its speaker —
except that an empty (falsy) speaker label is replaced by the default
`"SPEAKER_00"`. In particular, for segments `[(0,2,"A"), (8,10,"B")]` and
window `(4,5)` it returns `"A"`. -/
theorem claim_C2_nearest_fallback :
    (∀ (segs : List DiarSeg) (s e : ℚ), segs ≠ [] → s ≤ e →
      (∀ seg ∈ segs, ¬ 0 < overlapDur s e seg) →
      ∃ pre q post, segs = pre ++ q :: post ∧
        get_speaker_at_time segs s e =
          (if q.speaker = "" then "SPEAKER_00" else q.speaker) ∧
        (∀ sg ∈ segs, midDist s e q ≤ midDist s e sg) ∧
        (∀ sg ∈ pre, midDist s e q < midDist s e sg)) ∧
    get_speaker_at_time [⟨0, 2, "A"⟩, ⟨8, 10, "B"⟩] 4 5 = "A" := by
  constructor
  · intro segs s e hne _ hno
    exact get_speaker_fallback segs s e hne hno
  · norm_num [get_speaker_at_time, speakerOverlaps, overlapStep, overlapDur, addOverlap,
      firstMax, firstMaxGo, nearestLoop, abs_of_nonneg, abs_of_nonpos] <;> decide

/-- Witness for the amended C2 at the spec's concrete input. -/
theorem claim_C2_witness :
    get_speaker_at_time [⟨0, 2, "A"⟩, ⟨8, 10, "B"⟩] 4 5 = "A" :=
  claim_C2_nearest_fallback.2

/-- Claim C4: turn aggregation equals merging the maximal runs of
consecutive same-speaker segments — each turn takes the run's shared
speaker, the first segment's start, the last segment's end, and the
space-joined texts (`mkTurn`); runs are nonempty, uniform in speaker, and
adjacent runs change speaker (maximality). In particular, the three-segment
example aggregates into exactly two turns. -/
theorem claim_C4_turn_aggregation :
    (∀ segs : List ASeg, aggregateTurns segs = (runs segs).map mkTurn) ∧
    (∀ (segs r : List ASeg), r ∈ runs segs →
      r ≠ [] ∧ ∀ x ∈ r, x.speaker = (r.headD default).speaker) ∧
    (∀ segs : List ASeg,
      List.Chain' (fun r₁ r₂ => (r₁.headD default).speaker ≠ (r₂.headD default).speaker)
        (runs segs)) ∧
    aggregateTurns [⟨"A", 0, 2, "hi"⟩, ⟨"A", 2, 4, "there"⟩, ⟨"B", 4, 6, "bye"⟩] =
      [⟨"A", 0, 4, "hi there"⟩, ⟨"B", 4, 6, "bye"⟩] :=
  ⟨aggregateTurns_eq,
   fun segs r hr => ⟨runs_mem_ne_nil segs r hr, runs_mem_uniform segs r hr⟩,
   runs_chain, by decide⟩

/-- Witness for C4: the run-membership facts at a concrete input, plus the
concrete aggregation. -/
theorem claim_C4_witness :
    ([⟨"A", 0, 2, "hi"⟩] : List ASeg) ≠ [] ∧
    aggregateTurns [⟨"A", 0, 2, "hi"⟩, ⟨"A", 2, 4, "there"⟩, ⟨"B", 4, 6, "bye"⟩] =
      [⟨"A", 0, 4, "hi there"⟩, ⟨"B", 4, 6, "bye"⟩] :=
  ⟨(claim_C4_turn_aggregation.2.1 [⟨"A", 0, 2, "hi"⟩] [⟨"A", 0, 2, "hi"⟩] (by decide)).1,
   claim_C4_turn_aggregation.2.2.2⟩

/-- Claim C5: the empty input yields an empty output; the runs partition
the input exactly (no segment dropped or duplicated) and turns are in
bijection with runs; on input sorted by `start`, the emitted turns' starts
are in non-decreasing order. -/
theorem claim_C5_coverage_order :
    aggregateTurns ([] : List ASeg) = [] ∧
    (∀ segs : List ASeg, (runs segs).flatten = segs ∧
      aggregateTurns segs = (runs segs).map mkTurn ∧
      (aggregateTurns segs).length = (runs segs).length) ∧
    (∀ segs : List ASeg, List.Pairwise (· ≤ ·) (segs.map ASeg.start) →
      List.Pairwise (· ≤ ·) ((aggregateTurns segs).map Turn.start)) := by
  refine ⟨rfl, ?_, ?_⟩
  · intro segs
    exact ⟨join_runs segs, aggregateTurns_eq segs,
      by rw [aggregateTurns_eq, List.length_map]⟩
  · intro segs h
    rw [aggregateTurns_eq, List.map_map]
    have hmaps : (runs segs).map (Turn.start ∘ mkTurn) =
        ((runs segs).map (fun r => r.headD default)).map ASeg.start := by
      rw [List.map_map]
      exact List.map_congr_left (fun r _ => rfl)
    rw [hmaps]
    have hsub := List.Sublist.map ASeg.start
      (heads_sublist (runs segs) (runs_mem_ne_nil segs))
    rw [join_runs] at hsub
    exact List.Pairwise.sublist hsub h

/-- Witness for C5: the sortedness guarantee applied at a concrete sorted
input, plus the empty-input case. -/
theorem claim_C5_witness :
    aggregateTurns ([] : List ASeg) = [] ∧
    List.Pairwise (· ≤ ·)
      ((aggregateTurns [⟨"A", 0, 2, "hi"⟩, ⟨"B", 2, 4, "yo"⟩]).map Turn.start) :=
  ⟨claim_C5_coverage_order.1, claim_C5_coverage_order.2.2 _ (by decide)⟩

/-- Claim C6, counterexample: with diarization enabled, a run whose
diarization returned no segments (or whose transcription has no segments)
silently produces the plain `_transcription.txt` artifact, not the diarized
one. -/
theorem claim_C6_counterexample :
    main_transcript_filename "rec" true [] ⟨[⟨0, 1, "hi"⟩]⟩ = "rec_transcription.txt" ∧
    main_transcript_filename "rec" true [⟨0, 1, "SPEAKER_00"⟩] ⟨[]⟩ =
      "rec_transcription.txt" ∧
    "rec_transcription.txt" ≠ "rec_diarized.txt" :=
  ⟨rfl, rfl, by decide⟩

/-- Claim C6 (amended): with diarization enabled, the produced artifact is
`<stem>_diarized.txt` provided diarization returned at least one segment
and the transcription has at least one segment; if either list is empty the
run silently falls back to the plain `<stem>_transcription.txt` artifact. -/
theorem claim_C6_artifact_mode :
    ∀ (base_name : String) (dsegs : List DiarSeg) (w : WhisperResult),
      (dsegs ≠ [] → w.segments ≠ [] →
        main_transcript_filename base_name true dsegs w = base_name ++ "_diarized.txt") ∧
      (dsegs = [] ∨ w.segments = [] →
        main_transcript_filename base_name true dsegs w =
          base_name ++ "_transcription.txt") := by
  intro b d w
  have hmain : main_transcript_filename b true d w =
      if d.isEmpty then save_outputs_filename b none
      else save_outputs_filename b (some (merge_transcription_with_diarization w d)) := rfl
  have hplain : save_outputs_filename b none = b ++ "_transcription.txt" := by
    rw [save_outputs_filename, save_outputs_suffix, if_neg (by decide), String.append_assoc]
    exact congrArg (fun t => b ++ t) (by decide)
  constructor
  · intro hd hw
    have hmerge : merge_transcription_with_diarization w d ≠ [] := by
      intro hc
      have hlen := merge_length w d
      rw [hc] at hlen
      exact hw (List.length_eq_zero.mp hlen.symm)
    rw [hmain, if_neg (by simpa using hd), save_outputs_filename, save_outputs_suffix]
    have hie : (merge_transcription_with_diarization w d).isEmpty = false := by
      cases hcase : merge_transcription_with_diarization w d with
      | nil => exact absurd hcase hmerge
      | cons a l => rfl
    have htr : optListTruthy (some (merge_transcription_with_diarization w d)) = true := by
      simp [optListTruthy, hie]
    rw [if_pos htr, String.append_assoc]
    exact congrArg (fun t => b ++ t) (by decide)
  · intro hcase
    rcases hcase with rfl | hw
    · rw [hmain, if_pos (show ([] : List DiarSeg).isEmpty = true from rfl)]
      exact hplain
    · have hmerge0 : merge_transcription_with_diarization w d = [] := by
        rw [merge_eq_map, hw, List.map_nil]
      by_cases hd : d.isEmpty
      · rw [hmain, if_pos hd]
        exact hplain
      · rw [hmain, if_neg hd, hmerge0, save_outputs_filename, save_outputs_suffix,
          if_neg (by decide), String.append_assoc]
        exact congrArg (fun t => b ++ t) (by decide)

/-- Witness for the amended C6 at a concrete input. -/
theorem claim_C6_witness :
    main_transcript_filename "rec" true [⟨0, 1, "SPEAKER_00"⟩] ⟨[⟨0, 1, "hi"⟩]⟩ =
      "rec" ++ "_diarized.txt" :=
  (claim_C6_artifact_mode "rec" [⟨0, 1, "SPEAKER_00"⟩] ⟨[⟨0, 1, "hi"⟩]⟩).1
    (by decide) (by decide)

/-- Claim C7: the timestamp formatter truncates to whole seconds (never
rounds up) and renders `H:MM:SS` (hours unpadded, minutes/seconds
zero-padded) from 3600 s up, else `M:SS`; in particular
`format_timestamp 65 = "1:05"`, `format_timestamp 3725 = "1:02:05"`, and
`format_timestamp 59.9 = "0:59"`. -/
theorem claim_C7_timestamp :
    (∀ s : ℚ, 0 ≤ s → format_timestamp s = renderSpec ⌊s⌋₊) ∧
    format_timestamp 65 = "1:05" ∧
    format_timestamp 3725 = "1:02:05" ∧
    format_timestamp (599 / 10) = "0:59" := by
  refine ⟨format_timestamp_eq, ?_, ?_, ?_⟩
  · rw [format_timestamp_eq 65 (by norm_num), show ⌊(65 : ℚ)⌋₊ = 65 from by simp]
    decide
  · rw [format_timestamp_eq 3725 (by norm_num), show ⌊(3725 : ℚ)⌋₊ = 3725 from by simp]
    decide
  · rw [format_timestamp_eq (599 / 10) (by norm_num),
      show ⌊(599 / 10 : ℚ)⌋₊ = 59 from by
        rw [show (599 : ℚ) = ((599 : ℕ) : ℚ) from by norm_num,
          show (10 : ℚ) = ((10 : ℕ) : ℚ) from by norm_num,
          Rat.natFloor_natCast_div_natCast]]
    decide

/-- Witness for C7 at a concrete input. -/
theorem claim_C7_witness : format_timestamp 65 = renderSpec ⌊(65 : ℚ)⌋₊ :=
  claim_C7_timestamp.1 65 (by norm_num)

end Transcriber
